import Mathlib

/-!
Shallow embedding of the `kraster2d` triangle rasterizer (with its `kmath`
and `kpix` collaborators) from the `from-scratch-rust` repository.

Conventions of the embedding:
* `f32` values are modelled as `ℚ` (all claims evaluate the code on inputs
  whose arithmetic is exact).
* `usize` is modelled as `Nat`, `i32` as `Int`, `u8`/`u32` as `Nat`.
* A Rust panic (the `assert!` in `Ord::clamp` / `f32::clamp`, an `assert!`
  in a constructor, or an out-of-bounds `Vec` index) is modelled by
  returning `Option.none`; normal completion returns `some`.
-/

set_option allowUnsafeReducibility true
attribute [semireducible] Rat.add Rat.mul Rat.inv Rat.sub Rat.ofScientific

namespace Raster

/-- `kmath::Vec2` (fields `x y : f32`). -/
structure Vec2 where
  x : ℚ
  y : ℚ
deriving DecidableEq

/-- `kmath::Vec3` (only `x`,`y` are used by the rasterizer; `z` is reserved). -/
structure Vec3 where
  x : ℚ
  y : ℚ
  z : ℚ
deriving DecidableEq

/-- `kmath::num::EPS = 1e-6` (default epsilon for f32 comparisons). -/
def EPS : ℚ := 1 / 1000000

/-- `edge_function(a, b, p) = cross(b - a, p - a)` from `triangle_setup.rs`. -/
def edge_function (a b p : Vec2) : ℚ :=
  let abx := b.x - a.x
  let aby := b.y - a.y
  let apx := p.x - a.x
  let apy := p.y - a.y
  abx * apy - aby * apx

/-- `signed_area(v0, v1, v2) = edge_function(v0, v1, v2)` from `triangle_setup.rs`. -/
def signed_area (v0 v1 v2 : Vec2) : ℚ :=
  edge_function v0 v1 v2

/-- Rust `i32::clamp(self, min, max)`: panics (here `none`) when `min > max`. -/
def rustClamp (x lo hi : Int) : Option Int :=
  if lo ≤ hi then some (max lo (min x hi)) else none

/-- `bbox_clamped` from `triangle_setup.rs`: integer bounding box
`floor(min)`/`ceil(max)-1` clamped into `[0, width-1] × [0, height-1]`.
`none` models the panic of `i32::clamp` when its bounds are inverted. -/
def bbox_clamped (v0 v1 v2 : Vec2) (width height : Nat) :
    Option (Int × Int × Int × Int) :=
  let min_x : Int := ⌊min (min v0.x v1.x) v2.x⌋
  let min_y : Int := ⌊min (min v0.y v1.y) v2.y⌋
  let max_x : Int := ⌈max (max v0.x v1.x) v2.x⌉ - 1
  let max_y : Int := ⌈max (max v0.y v1.y) v2.y⌉ - 1
  let wmax : Int := (width : Int) - 1
  let hmax : Int := (height : Int) - 1
  match rustClamp min_x 0 wmax, rustClamp min_y 0 hmax,
        rustClamp max_x 0 wmax, rustClamp max_y 0 hmax with
  | some a, some b, some c, some d => some (a, b, c, d)
  | _, _, _, _ => none

/-- `is_top_left(a, b)` from `triangle_setup.rs`:
`dy < 0 || (dy == 0 && dx > 0)` for the edge `a→b` (y-down screen space). -/
def is_top_left (a b : Vec2) : Bool :=
  let dx := b.x - a.x
  let dy := b.y - a.y
  decide (dy < 0) || (decide (dy = 0) && decide (dx > 0))

/-- `kpix::Color` (four `u8` channels). -/
structure Color where
  r : Nat
  g : Nat
  b : Nat
  a : Nat
deriving DecidableEq

/-- `Color::rgba`. -/
def Color.rgba (r g b a : Nat) : Color := ⟨r, g, b, a⟩

/-- `Color::to_u32`: pack as little-endian RGBA (`u32::from_le_bytes([r,g,b,a])`). -/
def Color.to_u32 (c : Color) : Nat :=
  c.r + 256 * (c.g + 256 * (c.b + 256 * c.a))

/-- `Color::from_u32`: unpack a little-endian RGBA `u32`. -/
def Color.from_u32 (p : Nat) : Color :=
  ⟨p % 256, p / 256 % 256, p / 256 / 256 % 256, p / 256 / 256 / 256 % 256⟩

/-- `kraster2d::raster::triangle::Vertex`. -/
structure Vertex where
  pos : Vec3
  uv : Vec2
  color : ℚ × ℚ × ℚ
deriving DecidableEq

/-- `Vertex::new(pos)`: `uv = ZERO`, `color = [1.0, 1.0, 1.0]`. -/
def Vertex.new (pos : Vec3) : Vertex :=
  ⟨pos, ⟨0, 0⟩, (1, 1, 1)⟩

/-- The 2D position of a vertex, `Vec2::new(v.pos.x, v.pos.y)`. -/
def pos2 (v : Vertex) : Vec2 := ⟨v.pos.x, v.pos.y⟩

/-- The sampling point of pixel `(x, y)`: its center `(x + 0.5, y + 0.5)`. -/
def center (x y : Int) : Vec2 := ⟨(x : ℚ) + 1/2, (y : ℚ) + 1/2⟩

/-- The per-edge inside test of `raster_core`:
inclusive (`w >= 0`) for a top-left edge, strict (`w > 0`) otherwise. -/
def inside_test (tl : Bool) (w : ℚ) : Bool :=
  if tl then decide (0 ≤ w) else decide (0 < w)

/-- The body of the per-pixel loop of `raster_core`: evaluates the three
orientation-normalized edge weights at the pixel center, applies the
top-left tie-break, and on coverage yields the shade-call arguments
`(x, y, a, b, c)` with normalized barycentric weights. -/
def pixel_shade (p0 p1 p2 : Vec2) (sign inv_area : ℚ) (tl0 tl1 tl2 : Bool)
    (x y : Int) : Option (Int × Int × ℚ × ℚ × ℚ) :=
  let p := center x y
  let w0 := sign * edge_function p1 p2 p
  let w1 := sign * edge_function p2 p0 p
  let w2 := sign * edge_function p0 p1 p
  if inside_test tl0 w0 && inside_test tl1 w1 && inside_test tl2 w2 then
    some (x, y, w0 * inv_area, w1 * inv_area, w2 * inv_area)
  else
    none

/-- The inclusive integer range `lo..=hi` (empty when `hi < lo`). -/
def intRange (lo hi : Int) : List Int :=
  (List.range (hi + 1 - lo).toNat).map (fun i : Nat => lo + (i : Int))

/-- `raster_core` from `triangle.rs`: the sequence of shade invocations
`(x, y, a, b, c)` performed by the scan, in loop order; `none` models the
panic of `bbox_clamped` when `i32::clamp` gets inverted bounds. -/
def raster_core (width height : Nat) (v0 v1 v2 : Vertex) :
    Option (List (Int × Int × ℚ × ℚ × ℚ)) :=
  let p0 := pos2 v0
  let p1 := pos2 v1
  let p2 := pos2 v2
  let area := signed_area p0 p1 p2
  if |area| ≤ EPS then
    some []
  else
    let sign : ℚ := if area < 0 then -1 else 1
    let inv_area : ℚ := 1 / |area|
    match bbox_clamped p0 p1 p2 width height with
    | none => none
    | some (min_x, min_y, max_x, max_y) =>
      let tl0 := is_top_left p1 p2
      let tl1 := is_top_left p2 p0
      let tl2 := is_top_left p0 p1
      some ((intRange min_y max_y).flatMap (fun y =>
        (intRange min_x max_x).filterMap (fun x =>
          pixel_shade p0 p1 p2 sign inv_area tl0 tl1 tl2 x y)))

/-- The pixel coordinates shaded by a `raster_core` run. -/
def coordsOf (o : Option (List (Int × Int × ℚ × ℚ × ℚ))) : List (Int × Int) :=
  (o.getD []).map (fun e => (e.1, e.2.1))

/-- Pixel `(x, y)` receives a shade call from this triangle (no call at all
when the run panics). -/
def painted (width height : Nat) (v0 v1 v2 : Vertex) (x y : Int) : Prop :=
  (x, y) ∈ coordsOf (raster_core width height v0 v1 v2)

instance (width height : Nat) (v0 v1 v2 : Vertex) (x y : Int) :
    Decidable (painted width height v0 v1 v2 x y) := by
  unfold painted; infer_instance

/-- The signed area of the triangle of a draw call. -/
def areaOf (v0 v1 v2 : Vertex) : ℚ :=
  signed_area (pos2 v0) (pos2 v1) (pos2 v2)

/-- `sign` as computed by `raster_core`: `-1` when the area is negative, else `1`. -/
def signOf (area : ℚ) : ℚ := if area < 0 then -1 else 1

/-- The conjunction of the three per-edge inside tests of `raster_core`
at pixel `(x, y)` (orientation-normalized weights, top-left tie-break). -/
def insideAll (p0 p1 p2 : Vec2) (sign : ℚ) (x y : Int) : Bool :=
  inside_test (is_top_left p1 p2) (sign * edge_function p1 p2 (center x y)) &&
  inside_test (is_top_left p2 p0) (sign * edge_function p2 p0 (center x y)) &&
  inside_test (is_top_left p0 p1) (sign * edge_function p0 p1 (center x y))

/-- Pixel `(x, y)` passes every inside test of the triangle of a draw call. -/
def covered (v0 v1 v2 : Vertex) (x y : Int) : Bool :=
  insideAll (pos2 v0) (pos2 v1) (pos2 v2) (signOf (areaOf v0 v1 v2)) x y

/-- The orientation-normalized weight of edge `p1→p2` (vertex `v0`'s weight). -/
def weight0 (v0 v1 v2 : Vertex) (x y : Int) : ℚ :=
  signOf (areaOf v0 v1 v2) * edge_function (pos2 v1) (pos2 v2) (center x y)

/-- The orientation-normalized weight of edge `p2→p0` (vertex `v1`'s weight). -/
def weight1 (v0 v1 v2 : Vertex) (x y : Int) : ℚ :=
  signOf (areaOf v0 v1 v2) * edge_function (pos2 v2) (pos2 v0) (center x y)

/-- The orientation-normalized weight of edge `p0→p1` (vertex `v2`'s weight). -/
def weight2 (v0 v1 v2 : Vertex) (x y : Int) : ℚ :=
  signOf (areaOf v0 v1 v2) * edge_function (pos2 v0) (pos2 v1) (center x y)

/-- The triangle's axis-aligned bounding box lies fully off the buffer
rectangle `[0, width) × [0, height)` on one side. -/
def fully_outside (p0 p1 p2 : Vec2) (width height : Nat) : Prop :=
  (p0.x ≤ 0 ∧ p1.x ≤ 0 ∧ p2.x ≤ 0) ∨
  ((width : ℚ) ≤ p0.x ∧ (width : ℚ) ≤ p1.x ∧ (width : ℚ) ≤ p2.x) ∨
  (p0.y ≤ 0 ∧ p1.y ≤ 0 ∧ p2.y ≤ 0) ∨
  ((height : ℚ) ≤ p0.y ∧ (height : ℚ) ≤ p1.y ∧ (height : ℚ) ≤ p2.y)

instance (p0 p1 p2 : Vec2) (width height : Nat) :
    Decidable (fully_outside p0 p1 p2 width height) := by
  unfold fully_outside; infer_instance

/-- `kpix::Surface` (packed RGBA LE `u32` per pixel, row-major). -/
structure Surface where
  width : Nat
  height : Nat
  pixels : List Nat
deriving DecidableEq

/-- `Surface::new`: `width.saturating_mul(height)` zeroed pixels. -/
def Surface.new (width height : Nat) : Surface :=
  ⟨width, height, List.replicate (width * height) 0⟩

/-- `Surface::set_pixel`: out-of-bounds coordinates are silently ignored;
the in-bounds vector store panics (`none`) only if the index exceeds the
buffer length, which the `Surface` length invariant rules out. -/
def Surface.set_pixel (s : Surface) (x y : Int) (color : Color) : Option Surface :=
  if x < 0 ∨ y < 0 then some s
  else
    let xu := x.toNat
    let yu := y.toNat
    if xu ≥ s.width ∨ yu ≥ s.height then some s
    else
      let idx := yu * s.width + xu
      if idx < s.pixels.length then
        some ⟨s.width, s.height, s.pixels.set idx color.to_u32⟩
      else none

/-- `kraster2d::core::frame::Frame` (color buffer only; depth reserved). -/
structure Frame where
  surface : Surface
deriving DecidableEq

/-- `Frame::new`. -/
def Frame.new (width height : Nat) : Frame := ⟨Surface.new width height⟩

/-- `Frame::width`. -/
def Frame.width (f : Frame) : Nat := f.surface.width

/-- `Frame::height`. -/
def Frame.height (f : Frame) : Nat := f.surface.height

/-- `Frame::set_pixel` (delegates to `Surface::set_pixel`). -/
def Frame.set_pixel (f : Frame) (x y : Int) (c : Color) : Option Frame :=
  (f.surface.set_pixel x y c).map (fun s => ⟨s⟩)

/-- `Frame::pixels`. -/
def Frame.pixels (f : Frame) : List Nat := f.surface.pixels

/-- Rust `f32::clamp(self, lo, hi)`: panics (here `none`) when `lo > hi`. -/
def fclamp (x lo hi : ℚ) : Option ℚ :=
  if lo ≤ hi then some (max lo (min x hi)) else none

/-- `kraster2d::core::texture::Texture`. -/
structure Texture where
  width : Nat
  height : Nat
  pixels : List Nat
deriving DecidableEq

/-- `Texture::from_rgba_le`: asserts `width > 0 && height > 0` and then
`pixels.len() == width.saturating_mul(height)`; `none` models the panic. -/
def Texture.from_rgba_le (pixels : List Nat) (width height : Nat) : Option Texture :=
  if width > 0 ∧ height > 0 then
    if pixels.length = width * height then some ⟨width, height, pixels⟩
    else none
  else none

/-- `Texture::sample_nearest`: clamp `uv` into `[0,1]²`, map to the nearest
texel index with edge clamping, and read the packed color there. `none`
models the panics of `f32::clamp` (inverted bounds, impossible for a
constructed texture) and of the vector index. -/
def Texture.sample_nearest (t : Texture) (uv : Vec2) : Option Color :=
  let u := max 0 (min uv.x 1)
  let v := max 0 (min uv.y 1)
  let w : ℚ := (t.width : ℚ)
  let h : ℚ := (t.height : ℚ)
  match fclamp ((⌊u * (w - 1) + 1/2⌋ : Int) : ℚ) 0 (w - 1),
        fclamp ((⌊v * (h - 1) + 1/2⌋ : Int) : ℚ) 0 (h - 1) with
  | some txf, some tyf =>
    let tx := (⌊txf⌋).toNat
    let ty := (⌊tyf⌋).toNat
    let idx := ty * t.width + tx
    (t.pixels[idx]?).map Color.from_u32
  | _, _ => none

/-- Clamp into `[0, 1]` (`f32::clamp(0.0, 1.0)`; the bounds are constants,
so the clamp cannot panic). -/
def clamp01 (x : ℚ) : ℚ := max 0 (min x 1)

/-- The `to_u8` closure of `draw_triangle_vertex_color`:
`(v * 255.0 + 0.5).floor().clamp(0.0, 255.0) as u8`. -/
def to_u8 (v : ℚ) : Nat := (max 0 (min (⌊v * 255 + 1/2⌋) 255)).toNat

/-- The per-pixel color computed by `draw_triangle_vertex_color` at
barycentric weights `(a, b, c)`. -/
def vertex_color_at (v0 v1 v2 : Vertex) (a b c : ℚ) : Color :=
  let r := clamp01 (a * v0.color.1 + b * v1.color.1 + c * v2.color.1)
  let g := clamp01 (a * v0.color.2.1 + b * v1.color.2.1 + c * v2.color.2.1)
  let bch := clamp01 (a * v0.color.2.2 + b * v1.color.2.2 + c * v2.color.2.2)
  Color.rgba (to_u8 r) (to_u8 g) (to_u8 bch) 255

/-- The interpolated texture coordinate of `draw_triangle_textured` at
barycentric weights `(a, b, c)`. -/
def uv_at (v0 v1 v2 : Vertex) (a b c : ℚ) : Vec2 :=
  ⟨a * v0.uv.x + b * v1.uv.x + c * v2.uv.x,
   a * v0.uv.y + b * v1.uv.y + c * v2.uv.y⟩

/-- Replay the shade invocations of a `raster_core` run against a frame. -/
def run_shades (shade : Frame → Int × Int × ℚ × ℚ × ℚ → Option Frame)
    (f : Frame) (l : List (Int × Int × ℚ × ℚ × ℚ)) : Option Frame :=
  l.foldlM shade f

/-- `draw_triangle_solid`: every covered pixel gets the constant color. -/
def draw_triangle_solid (f : Frame) (v0 v1 v2 : Vertex) (color : Color) :
    Option Frame :=
  match raster_core f.width f.height v0 v1 v2 with
  | none => none
  | some l => run_shades (fun fr e => fr.set_pixel e.1 e.2.1 color) f l

/-- `draw_triangle_vertex_color`: interpolate the vertex colors, clamp each
channel to `[0,1]`, quantize to `u8`, alpha fixed at 255. -/
def draw_triangle_vertex_color (f : Frame) (v0 v1 v2 : Vertex) : Option Frame :=
  match raster_core f.width f.height v0 v1 v2 with
  | none => none
  | some l => run_shades (fun fr e =>
      fr.set_pixel e.1 e.2.1 (vertex_color_at v0 v1 v2 e.2.2.1 e.2.2.2.1 e.2.2.2.2)) f l

/-- `draw_triangle_textured`: interpolate `uv`, nearest-sample the texture,
write the returned color. -/
def draw_triangle_textured (f : Frame) (v0 v1 v2 : Vertex) (tex : Texture) :
    Option Frame :=
  match raster_core f.width f.height v0 v1 v2 with
  | none => none
  | some l => run_shades (fun fr e =>
      match tex.sample_nearest (uv_at v0 v1 v2 e.2.2.1 e.2.2.2.1 e.2.2.2.2) with
      | some col => fr.set_pixel e.1 e.2.1 col
      | none => none) f l

/-- The 2×2 test texture: distinct corner colors
(red TL, green TR, blue BL, white BR), row-major, top-left origin. -/
def tex2 : Texture :=
  ⟨2, 2, [Color.to_u32 (Color.rgba 255 0 0 255), Color.to_u32 (Color.rgba 0 255 0 255),
          Color.to_u32 (Color.rgba 0 0 255 255), Color.to_u32 (Color.rgba 255 255 255 255)]⟩

/-! ### Range and counting lemmas -/

theorem mem_intRange {lo hi a : Int} : a ∈ intRange lo hi ↔ lo ≤ a ∧ a ≤ hi := by
  unfold intRange
  constructor
  · intro h
    obtain ⟨i, hilt, hEq⟩ := List.mem_map.mp h
    have hlt := List.mem_range.mp hilt
    omega
  · intro h
    exact List.mem_map.mpr ⟨(a - lo).toNat, List.mem_range.mpr (by omega), by omega⟩

theorem nodup_intRange (lo hi : Int) : (intRange lo hi).Nodup := by
  unfold intRange
  have hinj : Function.Injective (fun i : Nat => lo + (i : Int)) := by
    intro a b hab
    simp only at hab
    omega
  exact (List.nodup_range _).map hinj

theorem countP_filterMap_key {α : Type} {key : α → Int} {f : Int → Option α} (x0 : Int)
    (hk : ∀ x e, f x = some e → key e = x) :
    ∀ xs : List Int, xs.Nodup →
      (xs.filterMap f).countP (fun e => key e == x0) =
        if x0 ∈ xs ∧ (f x0).isSome then 1 else 0
  | [], _ => by simp
  | x :: tl, hnd => by
    obtain ⟨hx, htl⟩ := List.nodup_cons.mp hnd
    have ih := countP_filterMap_key x0 hk tl htl
    cases hfx : f x with
    | none =>
      rw [List.filterMap_cons_none hfx, ih]
      by_cases hxx : x0 = x
      · subst hxx
        simp [hfx, hx]
      · simp [List.mem_cons, hxx]
    | some e =>
      have hkey : key e = x := hk x e hfx
      rw [List.filterMap_cons_some hfx, List.countP_cons, ih]
      by_cases hxx : x0 = x
      · subst hxx
        have h1 : ¬(x0 ∈ tl ∧ (f x0).isSome) := fun h => hx h.1
        have h2 : (key e == x0) = true := by simp [hkey]
        simp [h1, h2, List.mem_cons, hfx, hx]
      · have h2 : (key e == x0) = false := by simp [hkey]; omega
        simp [List.mem_cons, hxx, h2]

theorem countP_flatMap_key {α : Type} {key2 : α → Int} {p : α → Bool} (y0 : Int)
    {g : Int → List α}
    (hg : ∀ y e, e ∈ g y → key2 e = y)
    (hp : ∀ e, p e = true → key2 e = y0) :
    ∀ ys : List Int, ys.Nodup →
      (ys.flatMap g).countP p = if y0 ∈ ys then (g y0).countP p else 0
  | [], _ => by simp
  | y :: tl, hnd => by
    obtain ⟨hy, htl⟩ := List.nodup_cons.mp hnd
    have ih := countP_flatMap_key y0 hg hp tl htl
    rw [List.flatMap_cons, List.countP_append, ih]
    by_cases hyy : y0 = y
    · subst hyy
      simp [hy]
    · have hzero : (g y).countP p = 0 := by
        rw [List.countP_eq_zero]
        intro e he hpe
        exact hyy ((hp e hpe).symm.trans (hg y e he))
      simp [List.mem_cons, hyy, hzero]

/-! ### Algebraic identities of the edge function -/

theorem edge_swap (a b p : Vec2) : edge_function b a p = -edge_function a b p := by
  unfold edge_function
  ring

theorem edge_sum (p0 p1 p2 p : Vec2) :
    edge_function p1 p2 p + edge_function p2 p0 p + edge_function p0 p1 p =
      signed_area p0 p1 p2 := by
  unfold signed_area edge_function
  ring

theorem edge_comb_x (p0 p1 p2 p : Vec2) :
    edge_function p1 p2 p * p0.x + edge_function p2 p0 p * p1.x +
      edge_function p0 p1 p * p2.x = signed_area p0 p1 p2 * p.x := by
  unfold signed_area edge_function
  ring

theorem edge_comb_y (p0 p1 p2 p : Vec2) :
    edge_function p1 p2 p * p0.y + edge_function p2 p0 p * p1.y +
      edge_function p0 p1 p * p2.y = signed_area p0 p1 p2 * p.y := by
  unfold signed_area edge_function
  ring

theorem signed_area_swap (p0 p1 p2 : Vec2) :
    signed_area p0 p2 p1 = -signed_area p0 p1 p2 := by
  unfold signed_area edge_function
  ring

theorem signOf_mul_area (area : ℚ) : signOf area * area = |area| := by
  unfold signOf
  by_cases h : area < 0
  · rw [if_pos h, abs_of_neg h]
    ring
  · rw [if_neg h, abs_of_nonneg (not_lt.mp h)]
    ring

theorem signOf_neg {area : ℚ} (h : area ≠ 0) : signOf (-area) = -signOf area := by
  unfold signOf
  by_cases h1 : area < 0
  · have h2 : ¬(-area < 0) := by linarith
    simp [h1, h2]
  · have h3 : 0 < area := lt_of_le_of_ne (not_lt.mp h1) (Ne.symm h)
    have h2 : -area < 0 := by linarith
    simp [h1, h2]

theorem signOf_ne_zero (area : ℚ) : signOf area ≠ 0 := by
  unfold signOf
  split <;> norm_num

theorem EPS_pos : (0 : ℚ) < EPS := by norm_num [EPS]

theorem inside_test_nonneg {tl : Bool} {w : ℚ} (h : inside_test tl w = true) : 0 ≤ w := by
  cases tl <;> simp [inside_test] at h
  · exact le_of_lt h
  · exact h

theorem inside_test_of_ne {tl : Bool} {w : ℚ} (hw : w ≠ 0) :
    inside_test tl w = decide (0 < w) := by
  cases tl
  · rfl
  · have h : (0 ≤ w) ↔ (0 < w) := by
      constructor
      · intro hle
        exact lt_of_le_of_ne hle (Ne.symm hw)
      · exact le_of_lt
    simp [inside_test, h]

/-! ### Characterizing a `raster_core` run -/

theorem pixel_shade_eq (p0 p1 p2 : Vec2) (sign inv_area : ℚ) (x y : Int) :
    pixel_shade p0 p1 p2 sign inv_area (is_top_left p1 p2) (is_top_left p2 p0)
      (is_top_left p0 p1) x y =
      if insideAll p0 p1 p2 sign x y then
        some (x, y, sign * edge_function p1 p2 (center x y) * inv_area,
              sign * edge_function p2 p0 (center x y) * inv_area,
              sign * edge_function p0 p1 (center x y) * inv_area)
      else none := rfl

theorem raster_core_nondeg {width height : Nat} {v0 v1 v2 : Vertex}
    (hA : ¬(|areaOf v0 v1 v2| ≤ EPS)) :
    raster_core width height v0 v1 v2 =
      match bbox_clamped (pos2 v0) (pos2 v1) (pos2 v2) width height with
      | none => none
      | some (mnx, mny, mxx, mxy) =>
        some ((intRange mny mxy).flatMap (fun y =>
          (intRange mnx mxx).filterMap (fun x =>
            pixel_shade (pos2 v0) (pos2 v1) (pos2 v2)
              (signOf (areaOf v0 v1 v2)) (1 / |areaOf v0 v1 v2|)
              (is_top_left (pos2 v1) (pos2 v2)) (is_top_left (pos2 v2) (pos2 v0))
              (is_top_left (pos2 v0) (pos2 v1)) x y))) := by
  unfold areaOf at hA
  unfold raster_core
  rw [if_neg hA]
  unfold signOf areaOf signed_area
  rfl

theorem raster_core_deg {width height : Nat} {v0 v1 v2 : Vertex}
    (hA : |areaOf v0 v1 v2| ≤ EPS) :
    raster_core width height v0 v1 v2 = some [] := by
  unfold areaOf at hA
  unfold raster_core
  rw [if_pos hA]

theorem bbox_clamped_pos (v0 v1 v2 : Vec2) {width height : Nat}
    (hW : 0 < width) (hH : 0 < height) :
    bbox_clamped v0 v1 v2 width height =
      some (max 0 (min ⌊min (min v0.x v1.x) v2.x⌋ ((width : Int) - 1)),
            max 0 (min ⌊min (min v0.y v1.y) v2.y⌋ ((height : Int) - 1)),
            max 0 (min (⌈max (max v0.x v1.x) v2.x⌉ - 1) ((width : Int) - 1)),
            max 0 (min (⌈max (max v0.y v1.y) v2.y⌉ - 1) ((height : Int) - 1))) := by
  have h1 : (0 : Int) ≤ (width : Int) - 1 := by omega
  have h2 : (0 : Int) ≤ (height : Int) - 1 := by omega
  unfold bbox_clamped rustClamp
  simp [h1, h2]

theorem bbox_bounds {v0 v1 v2 : Vec2} {width height : Nat} {mnx mny mxx mxy : Int}
    (hW : 0 < width) (hH : 0 < height)
    (h : bbox_clamped v0 v1 v2 width height = some (mnx, mny, mxx, mxy)) :
    0 ≤ mnx ∧ mxx ≤ (width : Int) - 1 ∧ 0 ≤ mny ∧ mxy ≤ (height : Int) - 1 := by
  rw [bbox_clamped_pos v0 v1 v2 hW hH] at h
  simp only [Option.some.injEq, Prod.mk.injEq] at h
  obtain ⟨rfl, rfl, rfl, rfl⟩ := h
  exact ⟨le_max_left _ _, max_le (by omega) (min_le_right _ _),
         le_max_left _ _, max_le (by omega) (min_le_right _ _)⟩

theorem mem_scan {p0 p1 p2 : Vec2} {sign inv : ℚ} {tl0 tl1 tl2 : Bool}
    {mnx mny mxx mxy : Int} {e : Int × Int × ℚ × ℚ × ℚ} :
    e ∈ (intRange mny mxy).flatMap (fun y =>
        (intRange mnx mxx).filterMap (fun x =>
          pixel_shade p0 p1 p2 sign inv tl0 tl1 tl2 x y)) ↔
      ∃ y x, (mny ≤ y ∧ y ≤ mxy) ∧ (mnx ≤ x ∧ x ≤ mxx) ∧
        pixel_shade p0 p1 p2 sign inv tl0 tl1 tl2 x y = some e := by
  simp only [List.mem_flatMap, List.mem_filterMap, mem_intRange]
  constructor
  · rintro ⟨y, hy, x, hx, hps⟩
    exact ⟨y, x, hy, hx, hps⟩
  · rintro ⟨y, x, hy, hx, hps⟩
    exact ⟨y, hy, x, hx, hps⟩

theorem pixel_shade_some {p0 p1 p2 : Vec2} {sign inv : ℚ} {x y : Int}
    {e : Int × Int × ℚ × ℚ × ℚ}
    (h : pixel_shade p0 p1 p2 sign inv (is_top_left p1 p2) (is_top_left p2 p0)
      (is_top_left p0 p1) x y = some e) :
    insideAll p0 p1 p2 sign x y = true ∧
      e = (x, y, sign * edge_function p1 p2 (center x y) * inv,
           sign * edge_function p2 p0 (center x y) * inv,
           sign * edge_function p0 p1 (center x y) * inv) := by
  rw [pixel_shade_eq] at h
  by_cases hin : insideAll p0 p1 p2 sign x y = true
  · rw [if_pos hin] at h
    exact ⟨hin, (Option.some.inj h).symm⟩
  · rw [if_neg hin] at h
    exact absurd h (by simp)

theorem pixel_shade_isSome (p0 p1 p2 : Vec2) (sign inv : ℚ) (x y : Int) :
    (pixel_shade p0 p1 p2 sign inv (is_top_left p1 p2) (is_top_left p2 p0)
      (is_top_left p0 p1) x y).isSome = insideAll p0 p1 p2 sign x y := by
  rw [pixel_shade_eq]
  cases hin : insideAll p0 p1 p2 sign x y <;> simp [hin]

theorem painted_iff {width height : Nat} {v0 v1 v2 : Vertex} {x y : Int}
    (hA : ¬(|areaOf v0 v1 v2| ≤ EPS)) :
    painted width height v0 v1 v2 x y ↔
      ∃ mnx mny mxx mxy,
        bbox_clamped (pos2 v0) (pos2 v1) (pos2 v2) width height =
          some (mnx, mny, mxx, mxy) ∧
        (mnx ≤ x ∧ x ≤ mxx) ∧ (mny ≤ y ∧ y ≤ mxy) ∧ covered v0 v1 v2 x y = true := by
  unfold painted
  rw [raster_core_nondeg hA]
  cases hbb : bbox_clamped (pos2 v0) (pos2 v1) (pos2 v2) width height with
  | none =>
    simp [coordsOf]
  | some bb =>
    obtain ⟨mnx, mny, mxx, mxy⟩ := bb
    simp only [coordsOf, Option.getD_some, List.mem_map]
    constructor
    · rintro ⟨e, he, hxy⟩
      obtain ⟨y', x', hy', hx', hps⟩ := mem_scan.mp he
      obtain ⟨hin, rfl⟩ := pixel_shade_some hps
      simp only [Prod.mk.injEq] at hxy
      obtain ⟨rfl, rfl⟩ := hxy
      exact ⟨mnx, mny, mxx, mxy, rfl, hx', hy', hin⟩
    · rintro ⟨mnx', mny', mxx', mxy', hbb', hx', hy', hcov⟩
      simp only [Option.some.injEq, Prod.mk.injEq] at hbb'
      obtain ⟨rfl, rfl, rfl, rfl⟩ := hbb'
      refine ⟨(x, y,
        signOf (areaOf v0 v1 v2) * edge_function (pos2 v1) (pos2 v2) (center x y) *
          (1 / |areaOf v0 v1 v2|),
        signOf (areaOf v0 v1 v2) * edge_function (pos2 v2) (pos2 v0) (center x y) *
          (1 / |areaOf v0 v1 v2|),
        signOf (areaOf v0 v1 v2) * edge_function (pos2 v0) (pos2 v1) (center x y) *
          (1 / |areaOf v0 v1 v2|)), ?_, rfl⟩
      refine mem_scan.mpr ⟨y, x, hy', hx', ?_⟩
      unfold covered at hcov
      rw [pixel_shade_eq, if_pos hcov]

theorem raster_mem_weights {width height : Nat} {v0 v1 v2 : Vertex}
    {L : List (Int × Int × ℚ × ℚ × ℚ)}
    (hL : raster_core width height v0 v1 v2 = some L) :
    ∀ x y a b c, (x, y, a, b, c) ∈ L →
      a = weight0 v0 v1 v2 x y / |areaOf v0 v1 v2| ∧
      b = weight1 v0 v1 v2 x y / |areaOf v0 v1 v2| ∧
      c = weight2 v0 v1 v2 x y / |areaOf v0 v1 v2| ∧
      a + b + c = 1 := by
  intro x y a b c hmem
  by_cases hdeg : |areaOf v0 v1 v2| ≤ EPS
  · rw [raster_core_deg hdeg] at hL
    obtain rfl := Option.some.inj hL
    exact absurd hmem (List.not_mem_nil _)
  · rw [raster_core_nondeg hdeg] at hL
    cases hbb : bbox_clamped (pos2 v0) (pos2 v1) (pos2 v2) width height with
    | none =>
      rw [hbb] at hL
      exact absurd hL (by simp)
    | some bb =>
      obtain ⟨mnx, mny, mxx, mxy⟩ := bb
      rw [hbb] at hL
      obtain rfl := (Option.some.inj hL).symm
      obtain ⟨y', x', hy', hx', hps⟩ := mem_scan.mp hmem
      obtain ⟨hin, heq⟩ := pixel_shade_some hps
      simp only [Prod.mk.injEq] at heq
      obtain ⟨rfl, rfl, rfl, rfl, rfl⟩ := heq
      have hane : |areaOf v0 v1 v2| ≠ 0 := by
        have := EPS_pos
        intro hz
        rw [hz] at hdeg
        exact hdeg (le_of_lt this)
      refine ⟨(mul_one_div _ _), (mul_one_div _ _), (mul_one_div _ _), ?_⟩
      have hsum : signOf (areaOf v0 v1 v2) * edge_function (pos2 v1) (pos2 v2) (center x y) +
          signOf (areaOf v0 v1 v2) * edge_function (pos2 v2) (pos2 v0) (center x y) +
          signOf (areaOf v0 v1 v2) * edge_function (pos2 v0) (pos2 v1) (center x y) =
          |areaOf v0 v1 v2| := by
        have h1 := edge_sum (pos2 v0) (pos2 v1) (pos2 v2) (center x y)
        have h2 := signOf_mul_area (areaOf v0 v1 v2)
        unfold areaOf at h2 ⊢
        linear_combination signOf (signed_area (pos2 v0) (pos2 v1) (pos2 v2)) * h1 + h2
      calc signOf (areaOf v0 v1 v2) * edge_function (pos2 v1) (pos2 v2) (center x y) *
              (1 / |areaOf v0 v1 v2|) +
            signOf (areaOf v0 v1 v2) * edge_function (pos2 v2) (pos2 v0) (center x y) *
              (1 / |areaOf v0 v1 v2|) +
            signOf (areaOf v0 v1 v2) * edge_function (pos2 v0) (pos2 v1) (center x y) *
              (1 / |areaOf v0 v1 v2|)
          = (signOf (areaOf v0 v1 v2) * edge_function (pos2 v1) (pos2 v2) (center x y) +
             signOf (areaOf v0 v1 v2) * edge_function (pos2 v2) (pos2 v0) (center x y) +
             signOf (areaOf v0 v1 v2) * edge_function (pos2 v0) (pos2 v1) (center x y)) *
              (1 / |areaOf v0 v1 v2|) := by ring
        _ = |areaOf v0 v1 v2| * (1 / |areaOf v0 v1 v2|) := by rw [hsum]
        _ = 1 := by
            rw [mul_one_div]
            exact div_self hane

/-! ### Barycentric consequences of the inside tests -/

theorem weights_total (v0 v1 v2 : Vertex) (x y : Int) :
    weight0 v0 v1 v2 x y + weight1 v0 v1 v2 x y + weight2 v0 v1 v2 x y =
      |areaOf v0 v1 v2| := by
  have h1 := edge_sum (pos2 v0) (pos2 v1) (pos2 v2) (center x y)
  have h2 := signOf_mul_area (areaOf v0 v1 v2)
  unfold weight0 weight1 weight2 areaOf at *
  linear_combination signOf (signed_area (pos2 v0) (pos2 v1) (pos2 v2)) * h1 + h2

theorem weights_comb_x (v0 v1 v2 : Vertex) (x y : Int) :
    weight0 v0 v1 v2 x y * (pos2 v0).x + weight1 v0 v1 v2 x y * (pos2 v1).x +
      weight2 v0 v1 v2 x y * (pos2 v2).x =
      |areaOf v0 v1 v2| * ((x : ℚ) + 1/2) := by
  have h1 := edge_comb_x (pos2 v0) (pos2 v1) (pos2 v2) (center x y)
  have h2 := signOf_mul_area (areaOf v0 v1 v2)
  have hcx : (center x y).x = (x : ℚ) + 1/2 := rfl
  rw [hcx] at h1
  unfold weight0 weight1 weight2 areaOf at *
  linear_combination signOf (signed_area (pos2 v0) (pos2 v1) (pos2 v2)) * h1 +
    ((x : ℚ) + 1/2) * h2

theorem weights_comb_y (v0 v1 v2 : Vertex) (x y : Int) :
    weight0 v0 v1 v2 x y * (pos2 v0).y + weight1 v0 v1 v2 x y * (pos2 v1).y +
      weight2 v0 v1 v2 x y * (pos2 v2).y =
      |areaOf v0 v1 v2| * ((y : ℚ) + 1/2) := by
  have h1 := edge_comb_y (pos2 v0) (pos2 v1) (pos2 v2) (center x y)
  have h2 := signOf_mul_area (areaOf v0 v1 v2)
  have hcy : (center x y).y = (y : ℚ) + 1/2 := rfl
  rw [hcy] at h1
  unfold weight0 weight1 weight2 areaOf at *
  linear_combination signOf (signed_area (pos2 v0) (pos2 v1) (pos2 v2)) * h1 +
    ((y : ℚ) + 1/2) * h2

theorem covered_weights_nonneg {v0 v1 v2 : Vertex} {x y : Int}
    (hcov : covered v0 v1 v2 x y = true) :
    0 ≤ weight0 v0 v1 v2 x y ∧ 0 ≤ weight1 v0 v1 v2 x y ∧ 0 ≤ weight2 v0 v1 v2 x y := by
  unfold covered insideAll at hcov
  simp only [Bool.and_eq_true] at hcov
  obtain ⟨⟨h0, h1⟩, h2⟩ := hcov
  exact ⟨inside_test_nonneg h0, inside_test_nonneg h1, inside_test_nonneg h2⟩

/-- A covered pixel center lies in the triangle's axis-aligned hull. -/
theorem center_in_hull {v0 v1 v2 : Vertex} {x y : Int}
    (harea : EPS < |areaOf v0 v1 v2|) (hcov : covered v0 v1 v2 x y = true) :
    min (min (pos2 v0).x (pos2 v1).x) (pos2 v2).x ≤ (x : ℚ) + 1/2 ∧
    (x : ℚ) + 1/2 ≤ max (max (pos2 v0).x (pos2 v1).x) (pos2 v2).x ∧
    min (min (pos2 v0).y (pos2 v1).y) (pos2 v2).y ≤ (y : ℚ) + 1/2 ∧
    (y : ℚ) + 1/2 ≤ max (max (pos2 v0).y (pos2 v1).y) (pos2 v2).y := by
  obtain ⟨hw0, hw1, hw2⟩ := covered_weights_nonneg hcov
  have hpos : 0 < |areaOf v0 v1 v2| := lt_trans EPS_pos harea
  have htot := weights_total v0 v1 v2 x y
  have hcx := weights_comb_x v0 v1 v2 x y
  have hcy := weights_comb_y v0 v1 v2 x y
  refine ⟨?_, ?_, ?_, ?_⟩
  · have m1 : min (min (pos2 v0).x (pos2 v1).x) (pos2 v2).x ≤ (pos2 v0).x :=
      le_trans (min_le_left _ _) (min_le_left _ _)
    have m2 : min (min (pos2 v0).x (pos2 v1).x) (pos2 v2).x ≤ (pos2 v1).x :=
      le_trans (min_le_left _ _) (min_le_right _ _)
    have m3 : min (min (pos2 v0).x (pos2 v1).x) (pos2 v2).x ≤ (pos2 v2).x :=
      min_le_right _ _
    have hstep : |areaOf v0 v1 v2| * (min (min (pos2 v0).x (pos2 v1).x) (pos2 v2).x) ≤
        |areaOf v0 v1 v2| * ((x : ℚ) + 1/2) := by
      calc |areaOf v0 v1 v2| * (min (min (pos2 v0).x (pos2 v1).x) (pos2 v2).x)
          = (weight0 v0 v1 v2 x y + weight1 v0 v1 v2 x y + weight2 v0 v1 v2 x y) *
              (min (min (pos2 v0).x (pos2 v1).x) (pos2 v2).x) := by rw [htot]
        _ ≤ weight0 v0 v1 v2 x y * (pos2 v0).x + weight1 v0 v1 v2 x y * (pos2 v1).x +
              weight2 v0 v1 v2 x y * (pos2 v2).x := by
            nlinarith [mul_le_mul_of_nonneg_left m1 hw0,
              mul_le_mul_of_nonneg_left m2 hw1, mul_le_mul_of_nonneg_left m3 hw2]
        _ = |areaOf v0 v1 v2| * ((x : ℚ) + 1/2) := hcx
    exact le_of_mul_le_mul_left hstep hpos
  · have m1 : (pos2 v0).x ≤ max (max (pos2 v0).x (pos2 v1).x) (pos2 v2).x :=
      le_trans (le_max_left _ _) (le_max_left _ _)
    have m2 : (pos2 v1).x ≤ max (max (pos2 v0).x (pos2 v1).x) (pos2 v2).x :=
      le_trans (le_max_right _ _) (le_max_left _ _)
    have m3 : (pos2 v2).x ≤ max (max (pos2 v0).x (pos2 v1).x) (pos2 v2).x :=
      le_max_right _ _
    have hstep : |areaOf v0 v1 v2| * ((x : ℚ) + 1/2) ≤
        |areaOf v0 v1 v2| * (max (max (pos2 v0).x (pos2 v1).x) (pos2 v2).x) := by
      calc |areaOf v0 v1 v2| * ((x : ℚ) + 1/2)
          = weight0 v0 v1 v2 x y * (pos2 v0).x + weight1 v0 v1 v2 x y * (pos2 v1).x +
              weight2 v0 v1 v2 x y * (pos2 v2).x := hcx.symm
        _ ≤ (weight0 v0 v1 v2 x y + weight1 v0 v1 v2 x y + weight2 v0 v1 v2 x y) *
              (max (max (pos2 v0).x (pos2 v1).x) (pos2 v2).x) := by
            nlinarith [mul_le_mul_of_nonneg_left m1 hw0,
              mul_le_mul_of_nonneg_left m2 hw1, mul_le_mul_of_nonneg_left m3 hw2]
        _ = |areaOf v0 v1 v2| * (max (max (pos2 v0).x (pos2 v1).x) (pos2 v2).x) := by
            rw [htot]
    exact le_of_mul_le_mul_left hstep hpos
  · have m1 : min (min (pos2 v0).y (pos2 v1).y) (pos2 v2).y ≤ (pos2 v0).y :=
      le_trans (min_le_left _ _) (min_le_left _ _)
    have m2 : min (min (pos2 v0).y (pos2 v1).y) (pos2 v2).y ≤ (pos2 v1).y :=
      le_trans (min_le_left _ _) (min_le_right _ _)
    have m3 : min (min (pos2 v0).y (pos2 v1).y) (pos2 v2).y ≤ (pos2 v2).y :=
      min_le_right _ _
    have hstep : |areaOf v0 v1 v2| * (min (min (pos2 v0).y (pos2 v1).y) (pos2 v2).y) ≤
        |areaOf v0 v1 v2| * ((y : ℚ) + 1/2) := by
      calc |areaOf v0 v1 v2| * (min (min (pos2 v0).y (pos2 v1).y) (pos2 v2).y)
          = (weight0 v0 v1 v2 x y + weight1 v0 v1 v2 x y + weight2 v0 v1 v2 x y) *
              (min (min (pos2 v0).y (pos2 v1).y) (pos2 v2).y) := by rw [htot]
        _ ≤ weight0 v0 v1 v2 x y * (pos2 v0).y + weight1 v0 v1 v2 x y * (pos2 v1).y +
              weight2 v0 v1 v2 x y * (pos2 v2).y := by
            nlinarith [mul_le_mul_of_nonneg_left m1 hw0,
              mul_le_mul_of_nonneg_left m2 hw1, mul_le_mul_of_nonneg_left m3 hw2]
        _ = |areaOf v0 v1 v2| * ((y : ℚ) + 1/2) := hcy
    exact le_of_mul_le_mul_left hstep hpos
  · have m1 : (pos2 v0).y ≤ max (max (pos2 v0).y (pos2 v1).y) (pos2 v2).y :=
      le_trans (le_max_left _ _) (le_max_left _ _)
    have m2 : (pos2 v1).y ≤ max (max (pos2 v0).y (pos2 v1).y) (pos2 v2).y :=
      le_trans (le_max_right _ _) (le_max_left _ _)
    have m3 : (pos2 v2).y ≤ max (max (pos2 v0).y (pos2 v1).y) (pos2 v2).y :=
      le_max_right _ _
    have hstep : |areaOf v0 v1 v2| * ((y : ℚ) + 1/2) ≤
        |areaOf v0 v1 v2| * (max (max (pos2 v0).y (pos2 v1).y) (pos2 v2).y) := by
      calc |areaOf v0 v1 v2| * ((y : ℚ) + 1/2)
          = weight0 v0 v1 v2 x y * (pos2 v0).y + weight1 v0 v1 v2 x y * (pos2 v1).y +
              weight2 v0 v1 v2 x y * (pos2 v2).y := hcy.symm
        _ ≤ (weight0 v0 v1 v2 x y + weight1 v0 v1 v2 x y + weight2 v0 v1 v2 x y) *
              (max (max (pos2 v0).y (pos2 v1).y) (pos2 v2).y) := by
            nlinarith [mul_le_mul_of_nonneg_left m1 hw0,
              mul_le_mul_of_nonneg_left m2 hw1, mul_le_mul_of_nonneg_left m3 hw2]
        _ = |areaOf v0 v1 v2| * (max (max (pos2 v0).y (pos2 v1).y) (pos2 v2).y) := by
            rw [htot]
    exact le_of_mul_le_mul_left hstep hpos

/-! ### Exact shade count over the scan -/

theorem scan_countP {p0 p1 p2 : Vec2} {sign inv : ℚ} {mnx mny mxx mxy x y : Int}
    (hx : mnx ≤ x ∧ x ≤ mxx) (hy : mny ≤ y ∧ y ≤ mxy) :
    ((intRange mny mxy).flatMap (fun yy =>
        (intRange mnx mxx).filterMap (fun xx =>
          pixel_shade p0 p1 p2 sign inv (is_top_left p1 p2) (is_top_left p2 p0)
            (is_top_left p0 p1) xx yy))).countP
        (fun e => e.1 == x && e.2.1 == y) =
      if insideAll p0 p1 p2 sign x y then 1 else 0 := by
  have hg : ∀ (yy : Int) (e : Int × Int × ℚ × ℚ × ℚ),
      e ∈ (intRange mnx mxx).filterMap (fun xx =>
        pixel_shade p0 p1 p2 sign inv (is_top_left p1 p2) (is_top_left p2 p0)
          (is_top_left p0 p1) xx yy) → e.2.1 = yy := by
    intro yy e he
    obtain ⟨xx, hxx, hps⟩ := List.mem_filterMap.mp he
    obtain ⟨_, rfl⟩ := pixel_shade_some hps
    rfl
  have hp : ∀ e : Int × Int × ℚ × ℚ × ℚ,
      (e.1 == x && e.2.1 == y) = true → e.2.1 = y := by
    intro e he
    simp only [Bool.and_eq_true, beq_iff_eq] at he
    exact he.2
  rw [countP_flatMap_key y hg hp _ (nodup_intRange mny mxy),
    if_pos (mem_intRange.mpr hy)]
  have hcongr : ∀ e ∈ (intRange mnx mxx).filterMap (fun xx =>
      pixel_shade p0 p1 p2 sign inv (is_top_left p1 p2) (is_top_left p2 p0)
        (is_top_left p0 p1) xx y),
      (e.1 == x && e.2.1 == y) = true ↔
        ((fun e : Int × Int × ℚ × ℚ × ℚ => e.1 == x) e) = true := by
    intro e he
    rw [hg y e he]
    simp
  rw [List.countP_congr hcongr]
  have hk : ∀ (xx : Int) (e : Int × Int × ℚ × ℚ × ℚ),
      pixel_shade p0 p1 p2 sign inv (is_top_left p1 p2) (is_top_left p2 p0)
        (is_top_left p0 p1) xx y = some e → e.1 = xx := by
    intro xx e hps
    obtain ⟨_, rfl⟩ := pixel_shade_some hps
    rfl
  have hfin := countP_filterMap_key x hk (intRange mnx mxx) (nodup_intRange mnx mxx)
  rw [hfin]
  rw [pixel_shade_isSome]
  simp [mem_intRange.mpr hx]

/-! ### Fold congruence for shading -/

theorem foldlM_congr {α β : Type} (f g : β → α → Option β) (l : List α)
    (h : ∀ a ∈ l, ∀ b, f b a = g b a) :
    ∀ init : β, l.foldlM f init = l.foldlM g init := by
  induction l with
  | nil => intro init; rfl
  | cons a tl ih =>
    intro init
    rw [List.foldlM_cons, List.foldlM_cons, h a (List.mem_cons_self a tl) init]
    cases g init a with
    | none => rfl
    | some b =>
      show tl.foldlM f b = tl.foldlM g b
      exact ih (fun a' ha' b' => h a' (List.mem_cons_of_mem _ ha') b') b

/-! ## Claim theorems -/

set_option maxRecDepth 40000 in
/-- C1: drawing the two solid triangles `(2,2),(13,2),(13,13)` and
`(2,2),(13,13),(2,13)` on a 16×16 buffer shades, between the two draw
calls, exactly the 121 pixels with integer coordinates in
`[2,13) × [2,13)` (the grid `intRange 2 12 × intRange 2 12`), and the two
triangles' painted pixel sets are disjoint. -/
theorem two_triangles_tile_rect_exactly :
    (raster_core 16 16 (Vertex.new ⟨2, 2, 0⟩) (Vertex.new ⟨13, 2, 0⟩)
        (Vertex.new ⟨13, 13, 0⟩)).isSome = true ∧
    (raster_core 16 16 (Vertex.new ⟨2, 2, 0⟩) (Vertex.new ⟨13, 13, 0⟩)
        (Vertex.new ⟨2, 13, 0⟩)).isSome = true ∧
    (∀ p ∈ coordsOf (raster_core 16 16 (Vertex.new ⟨2, 2, 0⟩)
          (Vertex.new ⟨13, 2, 0⟩) (Vertex.new ⟨13, 13, 0⟩)) ++
        coordsOf (raster_core 16 16 (Vertex.new ⟨2, 2, 0⟩)
          (Vertex.new ⟨13, 13, 0⟩) (Vertex.new ⟨2, 13, 0⟩)),
      p ∈ (intRange 2 12).flatMap (fun y => (intRange 2 12).map (fun x => (x, y)))) ∧
    (∀ p ∈ (intRange 2 12).flatMap (fun y => (intRange 2 12).map (fun x => (x, y))),
      p ∈ coordsOf (raster_core 16 16 (Vertex.new ⟨2, 2, 0⟩)
          (Vertex.new ⟨13, 2, 0⟩) (Vertex.new ⟨13, 13, 0⟩)) ++
        coordsOf (raster_core 16 16 (Vertex.new ⟨2, 2, 0⟩)
          (Vertex.new ⟨13, 13, 0⟩) (Vertex.new ⟨2, 13, 0⟩))) ∧
    (∀ p ∈ coordsOf (raster_core 16 16 (Vertex.new ⟨2, 2, 0⟩)
        (Vertex.new ⟨13, 2, 0⟩) (Vertex.new ⟨13, 13, 0⟩)),
      p ∉ coordsOf (raster_core 16 16 (Vertex.new ⟨2, 2, 0⟩)
        (Vertex.new ⟨13, 13, 0⟩) (Vertex.new ⟨2, 13, 0⟩))) ∧
    ((intRange 2 12).flatMap (fun y => (intRange 2 12).map (fun x => (x, y)))).length
      = 121 ∧
    ((intRange 2 12).flatMap (fun y => (intRange 2 12).map (fun x => (x, y)))).Nodup := by
  refine ⟨by decide, by decide, by decide, by decide, by decide, by decide, by decide⟩

/-- C2 (counterexample): the painted pixel set is NOT invariant under
swapping two vertices: for the non-degenerate triangle
`(0,0.5),(4,0.5),(0,4)` on an 8×8 buffer, pixel `(0,0)` (whose center lies
exactly on the top edge) is painted with one winding and not the other. -/
theorem winding_changes_painted_set_on_edge :
    EPS < |areaOf (Vertex.new ⟨0, 1/2, 0⟩) (Vertex.new ⟨4, 1/2, 0⟩)
        (Vertex.new ⟨0, 4, 0⟩)| ∧
    painted 8 8 (Vertex.new ⟨0, 1/2, 0⟩) (Vertex.new ⟨4, 1/2, 0⟩)
        (Vertex.new ⟨0, 4, 0⟩) 0 0 ∧
    ¬ painted 8 8 (Vertex.new ⟨0, 1/2, 0⟩) (Vertex.new ⟨0, 4, 0⟩)
        (Vertex.new ⟨4, 1/2, 0⟩) 0 0 := by
  refine ⟨by decide, by decide, by decide⟩

theorem bbox_swap12 (v0 v1 v2 : Vec2) (width height : Nat) :
    bbox_clamped v0 v2 v1 width height = bbox_clamped v0 v1 v2 width height := by
  have hmax : ∀ a b c : ℚ, max (max a b) c = max (max a c) b := by
    intro a b c
    rw [max_assoc, max_comm b c, ← max_assoc]
  unfold bbox_clamped
  rw [min_right_comm v0.x v2.x v1.x, min_right_comm v0.y v2.y v1.y,
      hmax v0.x v2.x v1.x, hmax v0.y v2.y v1.y]

/-- C2 (amended): for a non-degenerate triangle, a pixel whose center lies
exactly on none of the three edge lines is painted with vertex order
`(v0,v1,v2)` if and only if it is painted with the swapped (opposite
winding) order `(v0,v2,v1)`; the painted sets can differ only at pixels
whose center lies exactly on an edge. -/
theorem painted_winding_invariant_off_edges (width height : Nat)
    (v0 v1 v2 : Vertex) (x y : Int) (hA : EPS < |areaOf v0 v1 v2|)
    (h0 : edge_function (pos2 v1) (pos2 v2) (center x y) ≠ 0)
    (h1 : edge_function (pos2 v2) (pos2 v0) (center x y) ≠ 0)
    (h2 : edge_function (pos2 v0) (pos2 v1) (center x y) ≠ 0) :
    (painted width height v0 v1 v2 x y ↔ painted width height v0 v2 v1 x y) := by
  have hA' : ¬(|areaOf v0 v1 v2| ≤ EPS) := not_le.mpr hA
  have hane : areaOf v0 v1 v2 ≠ 0 := by
    intro hz
    rw [hz, abs_zero] at hA
    exact absurd hA (not_lt.mpr (le_of_lt EPS_pos))
  have hareaswap : areaOf v0 v2 v1 = -areaOf v0 v1 v2 := by
    unfold areaOf
    exact signed_area_swap _ _ _
  have habs : |areaOf v0 v2 v1| = |areaOf v0 v1 v2| := by
    rw [hareaswap, abs_neg]
  have hA2' : ¬(|areaOf v0 v2 v1| ≤ EPS) := by
    rw [habs]
    exact hA'
  have hsign : signOf (areaOf v0 v2 v1) = -signOf (areaOf v0 v1 v2) := by
    rw [hareaswap]
    exact signOf_neg hane
  have hw0 : signOf (areaOf v0 v1 v2) *
      edge_function (pos2 v1) (pos2 v2) (center x y) ≠ 0 :=
    mul_ne_zero (signOf_ne_zero _) h0
  have hw1 : signOf (areaOf v0 v1 v2) *
      edge_function (pos2 v2) (pos2 v0) (center x y) ≠ 0 :=
    mul_ne_zero (signOf_ne_zero _) h1
  have hw2 : signOf (areaOf v0 v1 v2) *
      edge_function (pos2 v0) (pos2 v1) (center x y) ≠ 0 :=
    mul_ne_zero (signOf_ne_zero _) h2
  have hcov : covered v0 v2 v1 x y = covered v0 v1 v2 x y := by
    unfold covered insideAll
    rw [hsign]
    rw [edge_swap (pos2 v1) (pos2 v2) (center x y),
        edge_swap (pos2 v0) (pos2 v1) (center x y),
        edge_swap (pos2 v2) (pos2 v0) (center x y)]
    rw [neg_mul_neg, neg_mul_neg, neg_mul_neg]
    simp only [inside_test_of_ne hw0, inside_test_of_ne hw1, inside_test_of_ne hw2]
    cases decide (0 < signOf (areaOf v0 v1 v2) *
        edge_function (pos2 v1) (pos2 v2) (center x y)) <;>
      cases decide (0 < signOf (areaOf v0 v1 v2) *
        edge_function (pos2 v2) (pos2 v0) (center x y)) <;>
      cases decide (0 < signOf (areaOf v0 v1 v2) *
        edge_function (pos2 v0) (pos2 v1) (center x y)) <;> rfl
  rw [painted_iff hA', painted_iff hA2', bbox_swap12, hcov]

/-- C2 witness: the amended winding-invariance theorem applied to the
off-edge pixel `(1,1)` of the triangle `(0,0),(4,0),(0,4)` on 8×8. -/
theorem painted_winding_invariant_off_edges_witness :
    EPS < |areaOf (Vertex.new ⟨0, 0, 0⟩) (Vertex.new ⟨4, 0, 0⟩)
        (Vertex.new ⟨0, 4, 0⟩)| ∧
    edge_function (pos2 (Vertex.new ⟨4, 0, 0⟩)) (pos2 (Vertex.new ⟨0, 4, 0⟩))
        (center 1 1) ≠ 0 ∧
    edge_function (pos2 (Vertex.new ⟨0, 4, 0⟩)) (pos2 (Vertex.new ⟨0, 0, 0⟩))
        (center 1 1) ≠ 0 ∧
    edge_function (pos2 (Vertex.new ⟨0, 0, 0⟩)) (pos2 (Vertex.new ⟨4, 0, 0⟩))
        (center 1 1) ≠ 0 ∧
    (painted 8 8 (Vertex.new ⟨0, 0, 0⟩) (Vertex.new ⟨4, 0, 0⟩)
        (Vertex.new ⟨0, 4, 0⟩) 1 1 ↔
      painted 8 8 (Vertex.new ⟨0, 0, 0⟩) (Vertex.new ⟨0, 4, 0⟩)
        (Vertex.new ⟨4, 0, 0⟩) 1 1) :=
  ⟨by decide, by decide, by decide, by decide,
   painted_winding_invariant_off_edges 8 8 (Vertex.new ⟨0, 0, 0⟩)
     (Vertex.new ⟨4, 0, 0⟩) (Vertex.new ⟨0, 4, 0⟩) 1 1
     (by decide) (by decide) (by decide) (by decide)⟩

/-- C3: for every pixel `(x,y)` of the clamped bounding box the shade
callback is invoked exactly once iff every orientation-normalized edge
weight passes its (top-left inclusive, otherwise strict) test, and each
invocation receives `a = w0/|area|`, `b = w1/|area|`, `c = w2/|area|`,
which sum exactly to 1. -/
theorem raster_core_shades_iff_inside (width height : Nat) (v0 v1 v2 : Vertex)
    (hW : 0 < width) (hH : 0 < height) (hA : EPS < |areaOf v0 v1 v2|) :
    ∃ L mnx mny mxx mxy,
      raster_core width height v0 v1 v2 = some L ∧
      bbox_clamped (pos2 v0) (pos2 v1) (pos2 v2) width height =
        some (mnx, mny, mxx, mxy) ∧
      (∀ x y : Int, mnx ≤ x → x ≤ mxx → mny ≤ y → y ≤ mxy →
        L.countP (fun e => e.1 == x && e.2.1 == y) =
          if covered v0 v1 v2 x y then 1 else 0) ∧
      (∀ x y a b c, (x, y, a, b, c) ∈ L →
        a = weight0 v0 v1 v2 x y / |areaOf v0 v1 v2| ∧
        b = weight1 v0 v1 v2 x y / |areaOf v0 v1 v2| ∧
        c = weight2 v0 v1 v2 x y / |areaOf v0 v1 v2| ∧
        a + b + c = 1) := by
  have hA' : ¬(|areaOf v0 v1 v2| ≤ EPS) := not_le.mpr hA
  have hbbeq := bbox_clamped_pos (pos2 v0) (pos2 v1) (pos2 v2) hW hH
  have hrc : raster_core width height v0 v1 v2 =
      some ((intRange
          (max 0 (min ⌊min (min (pos2 v0).y (pos2 v1).y) (pos2 v2).y⌋
            ((height : Int) - 1)))
          (max 0 (min (⌈max (max (pos2 v0).y (pos2 v1).y) (pos2 v2).y⌉ - 1)
            ((height : Int) - 1)))).flatMap (fun yy =>
        (intRange
          (max 0 (min ⌊min (min (pos2 v0).x (pos2 v1).x) (pos2 v2).x⌋
            ((width : Int) - 1)))
          (max 0 (min (⌈max (max (pos2 v0).x (pos2 v1).x) (pos2 v2).x⌉ - 1)
            ((width : Int) - 1)))).filterMap (fun xx =>
          pixel_shade (pos2 v0) (pos2 v1) (pos2 v2) (signOf (areaOf v0 v1 v2))
            (1 / |areaOf v0 v1 v2|) (is_top_left (pos2 v1) (pos2 v2))
            (is_top_left (pos2 v2) (pos2 v0)) (is_top_left (pos2 v0) (pos2 v1))
            xx yy))) := by
    rw [raster_core_nondeg hA', hbbeq]
  refine ⟨_, _, _, _, _, hrc, hbbeq, ?_, raster_mem_weights hrc⟩
  intro x y hx1 hx2 hy1 hy2
  rw [scan_countP ⟨hx1, hx2⟩ ⟨hy1, hy2⟩]
  unfold covered
  rfl

/-- C3 witness: the exact-once/weights theorem applied to the concrete
triangle `(0,0),(4,0),(0,4)` on an 8×8 buffer. -/
theorem raster_core_shades_iff_inside_witness :
    (0 < 8 ∧ 0 < 8 ∧ EPS < |areaOf (Vertex.new ⟨0, 0, 0⟩)
        (Vertex.new ⟨4, 0, 0⟩) (Vertex.new ⟨0, 4, 0⟩)|) ∧
    (∃ L mnx mny mxx mxy,
      raster_core 8 8 (Vertex.new ⟨0, 0, 0⟩) (Vertex.new ⟨4, 0, 0⟩)
          (Vertex.new ⟨0, 4, 0⟩) = some L ∧
      bbox_clamped (pos2 (Vertex.new ⟨0, 0, 0⟩)) (pos2 (Vertex.new ⟨4, 0, 0⟩))
          (pos2 (Vertex.new ⟨0, 4, 0⟩)) 8 8 = some (mnx, mny, mxx, mxy) ∧
      (∀ x y : Int, mnx ≤ x → x ≤ mxx → mny ≤ y → y ≤ mxy →
        L.countP (fun e => e.1 == x && e.2.1 == y) =
          if covered (Vertex.new ⟨0, 0, 0⟩) (Vertex.new ⟨4, 0, 0⟩)
              (Vertex.new ⟨0, 4, 0⟩) x y then 1 else 0) ∧
      (∀ x y a b c, (x, y, a, b, c) ∈ L →
        a = weight0 (Vertex.new ⟨0, 0, 0⟩) (Vertex.new ⟨4, 0, 0⟩)
            (Vertex.new ⟨0, 4, 0⟩) x y /
            |areaOf (Vertex.new ⟨0, 0, 0⟩) (Vertex.new ⟨4, 0, 0⟩)
              (Vertex.new ⟨0, 4, 0⟩)| ∧
        b = weight1 (Vertex.new ⟨0, 0, 0⟩) (Vertex.new ⟨4, 0, 0⟩)
            (Vertex.new ⟨0, 4, 0⟩) x y /
            |areaOf (Vertex.new ⟨0, 0, 0⟩) (Vertex.new ⟨4, 0, 0⟩)
              (Vertex.new ⟨0, 4, 0⟩)| ∧
        c = weight2 (Vertex.new ⟨0, 0, 0⟩) (Vertex.new ⟨4, 0, 0⟩)
            (Vertex.new ⟨0, 4, 0⟩) x y /
            |areaOf (Vertex.new ⟨0, 0, 0⟩) (Vertex.new ⟨4, 0, 0⟩)
              (Vertex.new ⟨0, 4, 0⟩)| ∧
        a + b + c = 1)) :=
  ⟨⟨by decide, by decide, by decide⟩,
   raster_core_shades_iff_inside 8 8 (Vertex.new ⟨0, 0, 0⟩)
     (Vertex.new ⟨4, 0, 0⟩) (Vertex.new ⟨0, 4, 0⟩)
     (by decide) (by decide) (by decide)⟩

/-- C4 (code evaluated at the failing input): with buffer width 0 or height
0 and a non-degenerate finite triangle, the draw call does NOT complete
normally: `bbox_clamped` calls `i32::clamp` with `min = 0 > max = -1`,
which panics (modelled as `none`), contradicting the claimed absence of a
failure path. -/
theorem raster_core_panics_on_zero_size :
    EPS < |areaOf (Vertex.new ⟨0, 0, 0⟩) (Vertex.new ⟨1, 0, 0⟩)
        (Vertex.new ⟨0, 1, 0⟩)| ∧
    raster_core 0 1 (Vertex.new ⟨0, 0, 0⟩) (Vertex.new ⟨1, 0, 0⟩)
        (Vertex.new ⟨0, 1, 0⟩) = none ∧
    raster_core 1 0 (Vertex.new ⟨0, 0, 0⟩) (Vertex.new ⟨1, 0, 0⟩)
        (Vertex.new ⟨0, 1, 0⟩) = none ∧
    draw_triangle_solid (Frame.new 0 1) (Vertex.new ⟨0, 0, 0⟩)
        (Vertex.new ⟨1, 0, 0⟩) (Vertex.new ⟨0, 1, 0⟩)
        (Color.rgba 0 0 0 255) = none := by
  refine ⟨by decide, by decide, by decide, by decide⟩

/-- C5: a degenerate triangle (`|signed_area| <= EPS`) makes every draw
call invoke the shade callback zero times and leave the frame unchanged. -/
theorem degenerate_triangle_draws_nothing (f : Frame) (v0 v1 v2 : Vertex)
    (col : Color) (tex : Texture) (hA : |areaOf v0 v1 v2| ≤ EPS) :
    raster_core f.width f.height v0 v1 v2 = some [] ∧
    draw_triangle_solid f v0 v1 v2 col = some f ∧
    draw_triangle_vertex_color f v0 v1 v2 = some f ∧
    draw_triangle_textured f v0 v1 v2 tex = some f := by
  have h : raster_core f.width f.height v0 v1 v2 = some [] := raster_core_deg hA
  refine ⟨h, ?_, ?_, ?_⟩
  · unfold draw_triangle_solid
    rw [h]
    rfl
  · unfold draw_triangle_vertex_color
    rw [h]
    rfl
  · unfold draw_triangle_textured
    rw [h]
    rfl

/-- C5 witness: the degenerate triangle `(10,10),(20,10),(15,10)` (three
collinear points) drawn on a 4×4 frame in all three shading modes. -/
theorem degenerate_triangle_draws_nothing_witness :
    |areaOf (Vertex.new ⟨10, 10, 0⟩) (Vertex.new ⟨20, 10, 0⟩)
        (Vertex.new ⟨15, 10, 0⟩)| ≤ EPS ∧
    (raster_core (Frame.new 4 4).width (Frame.new 4 4).height
        (Vertex.new ⟨10, 10, 0⟩) (Vertex.new ⟨20, 10, 0⟩)
        (Vertex.new ⟨15, 10, 0⟩) = some [] ∧
      draw_triangle_solid (Frame.new 4 4) (Vertex.new ⟨10, 10, 0⟩)
        (Vertex.new ⟨20, 10, 0⟩) (Vertex.new ⟨15, 10, 0⟩)
        (Color.rgba 1 2 3 4) = some (Frame.new 4 4) ∧
      draw_triangle_vertex_color (Frame.new 4 4) (Vertex.new ⟨10, 10, 0⟩)
        (Vertex.new ⟨20, 10, 0⟩) (Vertex.new ⟨15, 10, 0⟩) = some (Frame.new 4 4) ∧
      draw_triangle_textured (Frame.new 4 4) (Vertex.new ⟨10, 10, 0⟩)
        (Vertex.new ⟨20, 10, 0⟩) (Vertex.new ⟨15, 10, 0⟩) tex2 = some (Frame.new 4 4)) :=
  ⟨by decide,
   degenerate_triangle_draws_nothing (Frame.new 4 4) (Vertex.new ⟨10, 10, 0⟩)
     (Vertex.new ⟨20, 10, 0⟩) (Vertex.new ⟨15, 10, 0⟩) (Color.rgba 1 2 3 4)
     tex2 (by decide)⟩

/-- C6 (counterexample): the triangle `(-5,-5),(-3,-5),(-5,-3)` lies fully
outside a 4×4 buffer and is non-degenerate, yet `bbox_clamped` returns the
border range `(0,0,0,0)` with `min ≤ max` on both axes: the clamped range
does not collapse to `min > max`, and the core iterates (but does not
shade) the pinned border pixel. -/
theorem bbox_of_outside_triangle_pins_to_border :
    bbox_clamped ⟨-5, -5⟩ ⟨-3, -5⟩ ⟨-5, -3⟩ 4 4 = some (0, 0, 0, 0) ∧
    fully_outside ⟨-5, -5⟩ ⟨-3, -5⟩ ⟨-5, -3⟩ 4 4 ∧
    EPS < |signed_area ⟨-5, -5⟩ ⟨-3, -5⟩ ⟨-5, -3⟩| := by
  refine ⟨by decide, by decide, by decide⟩

/-- C6 (amended): for every triangle fully outside the buffer and positive
buffer dimensions, the rasterizer core shades zero pixels: the clamped
bounding box pins to the buffer border (it need not collapse), and every
iterated pixel fails the inside test. -/
theorem fully_outside_triangle_shades_nothing (width height : Nat)
    (v0 v1 v2 : Vertex) (hW : 0 < width) (hH : 0 < height)
    (hout : fully_outside (pos2 v0) (pos2 v1) (pos2 v2) width height) :
    raster_core width height v0 v1 v2 = some [] := by
  by_cases hdeg : |areaOf v0 v1 v2| ≤ EPS
  · exact raster_core_deg hdeg
  · have hrc : raster_core width height v0 v1 v2 =
        some ((intRange
            (max 0 (min ⌊min (min (pos2 v0).y (pos2 v1).y) (pos2 v2).y⌋
              ((height : Int) - 1)))
            (max 0 (min (⌈max (max (pos2 v0).y (pos2 v1).y) (pos2 v2).y⌉ - 1)
              ((height : Int) - 1)))).flatMap (fun yy =>
          (intRange
            (max 0 (min ⌊min (min (pos2 v0).x (pos2 v1).x) (pos2 v2).x⌋
              ((width : Int) - 1)))
            (max 0 (min (⌈max (max (pos2 v0).x (pos2 v1).x) (pos2 v2).x⌉ - 1)
              ((width : Int) - 1)))).filterMap (fun xx =>
            pixel_shade (pos2 v0) (pos2 v1) (pos2 v2) (signOf (areaOf v0 v1 v2))
              (1 / |areaOf v0 v1 v2|) (is_top_left (pos2 v1) (pos2 v2))
              (is_top_left (pos2 v2) (pos2 v0)) (is_top_left (pos2 v0) (pos2 v1))
              xx yy))) := by
      rw [raster_core_nondeg hdeg, bbox_clamped_pos (pos2 v0) (pos2 v1) (pos2 v2) hW hH]
    rw [hrc]
    congr 1
    rw [List.eq_nil_iff_forall_not_mem]
    intro e he
    obtain ⟨y, x, hy, hx, hps⟩ := mem_scan.mp he
    obtain ⟨hin, rfl⟩ := pixel_shade_some hps
    have hcov : covered v0 v1 v2 x y = true := hin
    obtain ⟨hm1, hm2, hm3, hm4⟩ := center_in_hull (not_le.mp hdeg) hcov
    have hx0 : (0 : Int) ≤ x := le_trans (le_max_left _ _) hx.1
    have hx1 : x ≤ (width : Int) - 1 :=
      le_trans hx.2 (max_le (by omega) (min_le_right _ _))
    have hy0 : (0 : Int) ≤ y := le_trans (le_max_left _ _) hy.1
    have hy1 : y ≤ (height : Int) - 1 :=
      le_trans hy.2 (max_le (by omega) (min_le_right _ _))
    have hxq0 : (0 : ℚ) ≤ (x : ℚ) := by exact_mod_cast hx0
    have hxq1 : (x : ℚ) ≤ (width : ℚ) - 1 := by exact_mod_cast hx1
    have hyq0 : (0 : ℚ) ≤ (y : ℚ) := by exact_mod_cast hy0
    have hyq1 : (y : ℚ) ≤ (height : ℚ) - 1 := by exact_mod_cast hy1
    rcases hout with ⟨ha, hb, hc⟩ | ⟨ha, hb, hc⟩ | ⟨ha, hb, hc⟩ | ⟨ha, hb, hc⟩
    · have hmx : max (max (pos2 v0).x (pos2 v1).x) (pos2 v2).x ≤ 0 :=
        max_le (max_le ha hb) hc
      linarith
    · have hmn : (width : ℚ) ≤ min (min (pos2 v0).x (pos2 v1).x) (pos2 v2).x :=
        le_min (le_min ha hb) hc
      linarith
    · have hmx : max (max (pos2 v0).y (pos2 v1).y) (pos2 v2).y ≤ 0 :=
        max_le (max_le ha hb) hc
      linarith
    · have hmn : (height : ℚ) ≤ min (min (pos2 v0).y (pos2 v1).y) (pos2 v2).y :=
        le_min (le_min ha hb) hc
      linarith

/-- C6 witness: the amended zero-shading theorem applied to the
fully-outside triangle `(-5,-5),(-3,-5),(-5,-3)` on a 4×4 buffer. -/
theorem fully_outside_triangle_shades_nothing_witness :
    0 < 4 ∧
    fully_outside (pos2 (Vertex.new ⟨-5, -5, 0⟩)) (pos2 (Vertex.new ⟨-3, -5, 0⟩))
      (pos2 (Vertex.new ⟨-5, -3, 0⟩)) 4 4 ∧
    raster_core 4 4 (Vertex.new ⟨-5, -5, 0⟩) (Vertex.new ⟨-3, -5, 0⟩)
      (Vertex.new ⟨-5, -3, 0⟩) = some [] :=
  ⟨by decide, by decide,
   fully_outside_triangle_shades_nothing 4 4 (Vertex.new ⟨-5, -5, 0⟩)
     (Vertex.new ⟨-3, -5, 0⟩) (Vertex.new ⟨-5, -3, 0⟩)
     (by decide) (by decide) (by decide)⟩

/-- C7: `sample_nearest` first clamps `u`,`v` independently into `[0,1]`,
then reads the texel at column `floor(u*(w-1)+0.5)` clamped into `[0,w-1]`
and row `floor(v*(h-1)+0.5)` clamped into `[0,h-1]`; consequently, on the
2×2 texture with distinct corner colors the four corners sample exactly and
`(-1,-1)` samples the same texel as `(0,0)`. -/
theorem sample_nearest_clamped :
    (∀ (t : Texture) (uv : Vec2), 1 ≤ t.width → 1 ≤ t.height →
      t.sample_nearest uv =
        (t.pixels[(max 0 (min ⌊(max 0 (min uv.y 1)) * ((t.height : ℚ) - 1) + 1/2⌋
            ((t.height : Int) - 1))).toNat * t.width +
          (max 0 (min ⌊(max 0 (min uv.x 1)) * ((t.width : ℚ) - 1) + 1/2⌋
            ((t.width : Int) - 1))).toNat]?).map Color.from_u32) ∧
    tex2.sample_nearest ⟨0, 0⟩ = some (Color.rgba 255 0 0 255) ∧
    tex2.sample_nearest ⟨1, 0⟩ = some (Color.rgba 0 255 0 255) ∧
    tex2.sample_nearest ⟨0, 1⟩ = some (Color.rgba 0 0 255 255) ∧
    tex2.sample_nearest ⟨1, 1⟩ = some (Color.rgba 255 255 255 255) ∧
    tex2.sample_nearest ⟨-1, -1⟩ = tex2.sample_nearest ⟨0, 0⟩ := by
  refine ⟨?_, by decide, by decide, by decide, by decide, by decide⟩
  intro t uv hw hh
  have hw1 : (0 : ℚ) ≤ (t.width : ℚ) - 1 := by
    have h : (1 : ℚ) ≤ (t.width : ℚ) := by exact_mod_cast hw
    linarith
  have hh1 : (0 : ℚ) ≤ (t.height : ℚ) - 1 := by
    have h : (1 : ℚ) ≤ (t.height : ℚ) := by exact_mod_cast hh
    linarith
  unfold Texture.sample_nearest fclamp
  dsimp only
  rw [if_pos hw1, if_pos hh1]
  dsimp only
  have key : ∀ (n : Int) (m : Nat),
      (⌊max (0 : ℚ) (min ((n : ℚ)) ((m : ℚ) - 1))⌋).toNat =
        (max 0 (min n ((m : Int) - 1))).toNat := by
    intro n m
    have hcast : max (0 : ℚ) (min ((n : ℚ)) ((m : ℚ) - 1)) =
        ((max 0 (min n ((m : Int) - 1)) : Int) : ℚ) := by
      push_cast
      rfl
    rw [hcast, Int.floor_intCast]
  rw [key, key]

/-- C7 witness: the sampling formula applied to the 2×2 texture at the
interior coordinate `(1/4, 3/4)`. -/
theorem sample_nearest_clamped_witness :
    1 ≤ tex2.width ∧ 1 ≤ tex2.height ∧
    tex2.sample_nearest ⟨1/4, 3/4⟩ =
      (tex2.pixels[(max 0 (min ⌊(max 0 (min (3/4 : ℚ) 1)) * ((tex2.height : ℚ) - 1) + 1/2⌋
          ((tex2.height : Int) - 1))).toNat * tex2.width +
        (max 0 (min ⌊(max 0 (min (1/4 : ℚ) 1)) * ((tex2.width : ℚ) - 1) + 1/2⌋
          ((tex2.width : Int) - 1))).toNat]?).map Color.from_u32 :=
  ⟨by decide, by decide,
   sample_nearest_clamped.1 tex2 ⟨1/4, 3/4⟩ (by decide) (by decide)⟩

/-- C8: `Texture::from_rgba_le` fails (panics, modelled as `none`) exactly
when `width = 0`, `height = 0`, or the buffer length differs from
`width*height`; otherwise it succeeds and establishes the invariant that
the backing buffer length equals `width*height`. -/
theorem from_rgba_le_spec (pixels : List Nat) (width height : Nat) :
    (Texture.from_rgba_le pixels width height = none ↔
      width = 0 ∨ height = 0 ∨ pixels.length ≠ width * height) ∧
    (∀ t, Texture.from_rgba_le pixels width height = some t →
      t.width = width ∧ t.height = height ∧ t.pixels = pixels ∧
      t.pixels.length = t.width * t.height) := by
  unfold Texture.from_rgba_le
  by_cases h1 : width > 0 ∧ height > 0
  · rw [if_pos h1]
    by_cases h2 : pixels.length = width * height
    · rw [if_pos h2]
      constructor
      · constructor
        · intro h
          exact absurd h (by simp)
        · intro h
          rcases h with h | h | h
          · exact absurd h (by omega)
          · exact absurd h (by omega)
          · exact absurd h2 h
      · intro t ht
        obtain rfl := (Option.some.inj ht).symm
        exact ⟨rfl, rfl, rfl, h2⟩
    · rw [if_neg h2]
      refine ⟨⟨fun _ => Or.inr (Or.inr h2), fun _ => rfl⟩, ?_⟩
      intro t ht
      exact absurd ht (by simp)
  · rw [if_neg h1]
    refine ⟨⟨fun _ => by omega, fun _ => rfl⟩, ?_⟩
    intro t ht
    exact absurd ht (by simp)

/-- C8 witness: a 1×1 construction succeeds with the length invariant, and
a zero-width construction fails. -/
theorem from_rgba_le_spec_witness :
    ((⟨1, 1, [7]⟩ : Texture).width = 1 ∧ (⟨1, 1, [7]⟩ : Texture).height = 1 ∧
      (⟨1, 1, [7]⟩ : Texture).pixels = [7] ∧
      (⟨1, 1, [7]⟩ : Texture).pixels.length =
        (⟨1, 1, [7]⟩ : Texture).width * (⟨1, 1, [7]⟩ : Texture).height) ∧
    Texture.from_rgba_le [] 0 1 = none :=
  ⟨(from_rgba_le_spec [7] 1 1).2 ⟨1, 1, [7]⟩ rfl,
   (from_rgba_le_spec [] 0 1).1.mpr (Or.inl rfl)⟩

/-- C9: vertex-color shading with all three vertex colors equal to `c`
produces exactly the same frame — the same painted pixels with the same
quantized color — as solid shading with the quantized color of `c`. -/
theorem vertex_color_constant_eq_solid (f : Frame) (q0 q1 q2 : Vec3)
    (u0 u1 u2 : Vec2) (c : ℚ × ℚ × ℚ) :
    draw_triangle_vertex_color f ⟨q0, u0, c⟩ ⟨q1, u1, c⟩ ⟨q2, u2, c⟩ =
      draw_triangle_solid f ⟨q0, u0, c⟩ ⟨q1, u1, c⟩ ⟨q2, u2, c⟩
        (Color.rgba (to_u8 (clamp01 c.1)) (to_u8 (clamp01 c.2.1))
          (to_u8 (clamp01 c.2.2)) 255) := by
  unfold draw_triangle_vertex_color draw_triangle_solid
  cases hrc : raster_core f.width f.height ⟨q0, u0, c⟩ ⟨q1, u1, c⟩ ⟨q2, u2, c⟩ with
  | none => rfl
  | some L =>
    have hws := raster_mem_weights hrc
    unfold run_shades
    apply foldlM_congr
    intro e he fr
    obtain ⟨x, y, a, b, w⟩ := e
    obtain ⟨-, -, -, hsum⟩ := hws x y a b w he
    have hch : ∀ t : ℚ, a * t + b * t + w * t = t := by
      intro t
      have hh : a * t + b * t + w * t = (a + b + w) * t := by ring
      rw [hh, hsum, one_mul]
    congr 1
    unfold vertex_color_at
    rw [hch, hch, hch]

/-- C10: `Surface::set_pixel` with in-range coordinates writes the packed
color only at index `y*width + x` and leaves every other index unchanged;
any out-of-range coordinate (including negative) leaves the surface
untouched; under the length invariant it never panics. -/
theorem set_pixel_frame_effect (s : Surface) (x y : Int) (c : Color)
    (hinv : s.pixels.length = s.width * s.height) :
    ((0 ≤ x ∧ x < (s.width : Int) ∧ 0 ≤ y ∧ y < (s.height : Int)) →
      ∃ s', s.set_pixel x y c = some s' ∧ s'.width = s.width ∧
        s'.height = s.height ∧ s'.pixels.length = s.pixels.length ∧
        s'.pixels[y.toNat * s.width + x.toNat]? = some c.to_u32 ∧
        (∀ i : Nat, i ≠ y.toNat * s.width + x.toNat →
          s'.pixels[i]? = s.pixels[i]?)) ∧
    (¬(0 ≤ x ∧ x < (s.width : Int) ∧ 0 ≤ y ∧ y < (s.height : Int)) →
      s.set_pixel x y c = some s) ∧
    (s.set_pixel x y c).isSome = true := by
  by_cases hin : 0 ≤ x ∧ x < (s.width : Int) ∧ 0 ≤ y ∧ y < (s.height : Int)
  · obtain ⟨hx0, hxw, hy0, hyh⟩ := hin
    have hc1 : ¬(x < 0 ∨ y < 0) := by omega
    have hc2 : ¬(x.toNat ≥ s.width ∨ y.toNat ≥ s.height) := by omega
    have hidx : y.toNat * s.width + x.toNat < s.pixels.length := by
      rw [hinv]
      have hxw' : x.toNat < s.width := by omega
      have hyh' : y.toNat < s.height := by omega
      calc y.toNat * s.width + x.toNat < (y.toNat + 1) * s.width := by
            rw [Nat.succ_mul]
            omega
        _ ≤ s.height * s.width := Nat.mul_le_mul_right _ hyh'
        _ = s.width * s.height := Nat.mul_comm _ _
    have hsp : s.set_pixel x y c =
        some ⟨s.width, s.height,
          s.pixels.set (y.toNat * s.width + x.toNat) c.to_u32⟩ := by
      unfold Surface.set_pixel
      rw [if_neg hc1, if_neg hc2, if_pos hidx]
    refine ⟨fun _ => ⟨_, hsp, rfl, rfl, List.length_set _ _ _, ?_, ?_⟩,
      fun hcon => absurd ⟨hx0, hxw, hy0, hyh⟩ hcon, by rw [hsp]; rfl⟩
    · exact List.getElem?_set_self hidx
    · intro i hi
      exact List.getElem?_set_ne (Ne.symm hi)
  · have hsp : s.set_pixel x y c = some s := by
      unfold Surface.set_pixel
      by_cases hneg : x < 0 ∨ y < 0
      · rw [if_pos hneg]
      · rw [if_neg hneg]
        have hge : x.toNat ≥ s.width ∨ y.toNat ≥ s.height := by omega
        rw [if_pos hge]
    exact ⟨fun hcon => absurd hcon hin, fun _ => hsp, by rw [hsp]; rfl⟩

/-- C10 witness: an in-range write on a 2×2 surface, applied through the
frame-effect theorem. -/
theorem set_pixel_frame_effect_witness :
    (⟨2, 2, [9, 9, 9, 9]⟩ : Surface).pixels.length =
      (⟨2, 2, [9, 9, 9, 9]⟩ : Surface).width *
        (⟨2, 2, [9, 9, 9, 9]⟩ : Surface).height ∧
    (((0 ≤ (1 : Int) ∧ (1 : Int) < ((⟨2, 2, [9, 9, 9, 9]⟩ : Surface).width : Int) ∧
        0 ≤ (0 : Int) ∧ (0 : Int) < ((⟨2, 2, [9, 9, 9, 9]⟩ : Surface).height : Int)) →
      ∃ s', (⟨2, 2, [9, 9, 9, 9]⟩ : Surface).set_pixel 1 0 (Color.rgba 1 2 3 4) = some s' ∧
        s'.width = (⟨2, 2, [9, 9, 9, 9]⟩ : Surface).width ∧
        s'.height = (⟨2, 2, [9, 9, 9, 9]⟩ : Surface).height ∧
        s'.pixels.length = (⟨2, 2, [9, 9, 9, 9]⟩ : Surface).pixels.length ∧
        s'.pixels[(0 : Int).toNat * (⟨2, 2, [9, 9, 9, 9]⟩ : Surface).width +
          (1 : Int).toNat]? = some (Color.rgba 1 2 3 4).to_u32 ∧
        (∀ i : Nat, i ≠ (0 : Int).toNat * (⟨2, 2, [9, 9, 9, 9]⟩ : Surface).width +
            (1 : Int).toNat →
          s'.pixels[i]? = (⟨2, 2, [9, 9, 9, 9]⟩ : Surface).pixels[i]?)) ∧
    (¬(0 ≤ (1 : Int) ∧ (1 : Int) < ((⟨2, 2, [9, 9, 9, 9]⟩ : Surface).width : Int) ∧
        0 ≤ (0 : Int) ∧ (0 : Int) < ((⟨2, 2, [9, 9, 9, 9]⟩ : Surface).height : Int)) →
      (⟨2, 2, [9, 9, 9, 9]⟩ : Surface).set_pixel 1 0 (Color.rgba 1 2 3 4) =
        some ⟨2, 2, [9, 9, 9, 9]⟩) ∧
    ((⟨2, 2, [9, 9, 9, 9]⟩ : Surface).set_pixel 1 0 (Color.rgba 1 2 3 4)).isSome = true) :=
  ⟨by decide,
   set_pixel_frame_effect ⟨2, 2, [9, 9, 9, 9]⟩ 1 0 (Color.rgba 1 2 3 4) (by decide)⟩

end Raster
